import Mathlib

/-!
Verification of the sliding-window rainfall aggregation core of
`lizard_rainapp` (source: `lizard_rainapp/layers.py`).

Shallow embedding conventions:
* A timezone-aware datetime (python `datetime` with `tzinfo`) is a pair
  of a wall-clock reading and a UTC offset, both counted in seconds
  (`AwareDT`).  Two aware datetimes compare by their denoted instant
  `wall - offset`; `datetime.replace(tzinfo=...)` keeps the wall clock
  and swaps the offset (`replaceTz`), and `astimezone` keeps the
  instant.  Where only instants matter (the window arithmetic of
  `rain_stats`) datetimes are represented by their instant (an `Int`).
* Rainfall values (python floats holding millimetres) are embedded as
  rationals (`ℚ`); timedeltas are embedded as their total seconds.
* Python code that can raise (`dict[key]` lookups, indexing an empty
  list) is embedded as an `Option`-returning function where `none`
  models the raised exception.
-/

namespace LizardRainapp

/-- A timezone-aware datetime: wall-clock seconds plus the UTC offset of
its `tzinfo`, in seconds.  The denoted instant is `wall - offset`. -/
structure AwareDT where
  wall : Int
  offset : Int
deriving DecidableEq

/-- The instant (UTC timestamp) denoted by an aware datetime. -/
def AwareDT.instant (d : AwareDT) : Int := d.wall - d.offset

/-- Python `datetime.replace(tzinfo=tz)`: keep the wall-clock fields, replace
the offset (layers.py lines 383-384). -/
def replaceTz (d : AwareDT) (off : Int) : AwareDT := ⟨d.wall, off⟩

/-- One row of the value dicts handled by `layers.py`: a timestamped
rainfall reading `{'datetime': ..., 'value': ..., 'unit': ...}`. -/
structure Value where
  datetime : AwareDT
  value : ℚ
  unit : String
deriving DecidableEq

/-- A series is time-ascending when consecutive instants never decrease. -/
def tsSorted (l : List Value) : Prop :=
  l.Pairwise (fun a b => a.datetime.instant ≤ b.datetime.instant)

instance (l : List Value) : Decidable (tsSorted l) := by
  unfold tsSorted; exact List.instDecidablePairwise l

/-- The `UNIT_TO_TIMEDELTA` table (layers.py lines 44-52), timedeltas as
seconds; `none` models a key that is absent from the dict. -/
def UNIT_TO_TIMEDELTA (unit : String) : Option Int :=
  if unit = "mm/24hr" then some 86400
  else if unit = "mm/24h" then some 86400
  else if unit = "mm/3hr" then some 10800
  else if unit = "mm/3h" then some 10800
  else if unit = "mm/hr" then some 3600
  else if unit = "mm/h" then some 3600
  else if unit = "mm/5min" then some 300
  else none

/-- Python `int()` applied to a rational: truncation toward zero.  This
is what the `%i` conversion of `'T = %i' % t` performs. -/
def ratTrunc (q : ℚ) : Int := if 0 ≤ q then ⌊q⌋ else -⌊-q⌋

/-- Embeds `RainAppAdapter._t_to_string` (layers.py lines 92-98): format a
return period `t` (`none` models python `None`). -/
def _t_to_string (t : Option ℚ) : String :=
  match t with
  | none => "-"
  | some tv => if 1 < tv then "T = " ++ toString (ratTrunc tv) else "T ≤ 1"

/-- The front trim of `_cached_values` (layers.py line 387-388):
`while values and values[0]['datetime'] < start_date: del values[0]`,
with `s` the instant of the (already coerced) `start_date`. -/
def trimFront (s : Int) : List Value → List Value
  | [] => []
  | v :: vs => if v.datetime.instant < s then trimFront s vs else v :: vs

/-- Helper for the back trim: the same loop run on the reversed list
(dropping leading elements whose instant exceeds `e`). -/
def trimBackAux (e : Int) : List Value → List Value
  | [] => []
  | v :: vs => if e < v.datetime.instant then trimBackAux e vs else v :: vs

/-- The back trim of `_cached_values` (layers.py line 389-390):
`while values and values[-1]['datetime'] > end_date: del values[-1]`. -/
def trimBack (e : Int) (l : List Value) : List Value :=
  (trimBackAux e l.reverse).reverse

/-- The complete trimming step of `_cached_values` (layers.py lines
386-390): drop out-of-range observations from the front, then from the
back, comparing instants against the given bounds. -/
def trim (s e : Int) (l : List Value) : List Value :=
  trimBack e (trimFront s l)

/-- Embeds `RainAppAdapter._cached_values` after the fetch/cache round trip
(layers.py lines 374-392): `values` is the deserialized day-quantized
series.  Guard on the empty series, then coerce `start_date` and
`end_date` to the tzinfo of the first observation with
`datetime.replace`, then trim both ends.  The `none` branch models the
`IndexError` that `values[0]` would raise on an empty list (it is
unreachable because of the guard). -/
def _cached_values (values : List Value) (start_date end_date : AwareDT) :
    Option (List Value) :=
  if values.isEmpty then some []
  else
    match values.head? with
    | none => none
    | some v0 =>
      some (trim (replaceTz start_date v0.datetime.offset).instant
                 (replaceTz end_date v0.datetime.offset).instant values)

/-- The day-quantized cache key of `_cached_values` (layers.py lines
349-358).  The source hashes the string
`'%s::%s::%s::%s::%s::%s' % (jdbc_source.id, filterkey, parameterkey,
location, start_date_cache, end_date_cache)`; equal component tuples
yield equal strings and hence equal hashes, so the key is embedded as
the component tuple itself. -/
structure CacheKey where
  jdbc_source_id : Int
  filterkey : String
  parameterkey : String
  location : String
  start_date_cache : Int
  end_date_cache : Int
deriving DecidableEq

/-- Python `datetime.datetime(d.year, d.month, d.day)`: midnight (wall clock)
of the calendar day of `d`.  Calendar days are in bijection with
`d.wall.fdiv 86400` (the floored day number of the wall clock), so the
naive midnight is that day number times 86400. -/
def floorToMidnight (d : AwareDT) : Int := (d.wall.fdiv 86400) * 86400

/-- The cache key computation of `_cached_values` (layers.py lines
349-358): floor `start_date` to midnight, take the midnight after
`end_date`'s day (`+ timedelta(days=1)`). -/
def cache_key (jid : Int) (fk pk loc : String)
    (start_date end_date : AwareDT) : CacheKey :=
  ⟨jid, fk, pk, loc,
   floorToMidnight start_date,
   floorToMidnight end_date + 86400⟩

/-! ### Elementary facts about the trimming loops -/

theorem trimFront_head (s : Int) :
    ∀ l : List Value, ∀ v ∈ (trimFront s l).head?, ¬ v.datetime.instant < s := by
  intro l
  induction l with
  | nil => intro v hv; simp [trimFront] at hv
  | cons a as ih =>
    intro v hv
    by_cases h : a.datetime.instant < s
    · exact ih v (by simpa [trimFront, h] using hv)
    · simp [trimFront, h] at hv
      subst hv; exact h

theorem trimBackAux_head (e : Int) :
    ∀ l : List Value, ∀ v ∈ (trimBackAux e l).head?, ¬ e < v.datetime.instant := by
  intro l
  induction l with
  | nil => intro v hv; simp [trimBackAux] at hv
  | cons a as ih =>
    intro v hv
    by_cases h : e < a.datetime.instant
    · exact ih v (by simpa [trimBackAux, h] using hv)
    · simp [trimBackAux, h] at hv
      subst hv; exact h

theorem trimFront_suffix (s : Int) :
    ∀ l : List Value, ∃ pre, pre ++ trimFront s l = l := by
  intro l
  induction l with
  | nil => exact ⟨[], rfl⟩
  | cons a as ih =>
    by_cases h : a.datetime.instant < s
    · obtain ⟨pre, hpre⟩ := ih
      exact ⟨a :: pre, by simp [trimFront, h, hpre]⟩
    · exact ⟨[], by simp [trimFront, h]⟩

theorem trimBackAux_suffix (e : Int) :
    ∀ l : List Value, ∃ pre, pre ++ trimBackAux e l = l := by
  intro l
  induction l with
  | nil => exact ⟨[], rfl⟩
  | cons a as ih =>
    by_cases h : e < a.datetime.instant
    · obtain ⟨pre, hpre⟩ := ih
      exact ⟨a :: pre, by simp [trimBackAux, h, hpre]⟩
    · exact ⟨[], by simp [trimBackAux, h]⟩

theorem trimBack_append_eq (e : Int) (l : List Value) :
    ∃ post, trimBack e l ++ post = l := by
  obtain ⟨pre, hpre⟩ := trimBackAux_suffix e l.reverse
  refine ⟨pre.reverse, ?_⟩
  have := congrArg List.reverse hpre
  simpa [trimBack] using this

theorem trimFront_eq_self (s : Int) (l : List Value)
    (h : ∀ v ∈ l.head?, ¬ v.datetime.instant < s) : trimFront s l = l := by
  cases l with
  | nil => rfl
  | cons a as =>
    have := h a (by simp)
    simp [trimFront, this]

theorem trimBackAux_eq_self (e : Int) (l : List Value)
    (h : ∀ v ∈ l.head?, ¬ e < v.datetime.instant) : trimBackAux e l = l := by
  cases l with
  | nil => rfl
  | cons a as =>
    have := h a (by simp)
    simp [trimBackAux, this]

theorem trimBack_eq_self (e : Int) (l : List Value)
    (h : ∀ v ∈ l.getLast?, ¬ e < v.datetime.instant) : trimBack e l = l := by
  have hrev : ∀ v ∈ l.reverse.head?, ¬ e < v.datetime.instant := by
    intro v hv
    exact h v (by simpa [List.head?_reverse] using hv)
  simp [trimBack, trimBackAux_eq_self e l.reverse hrev]

theorem trimBack_getLast (e : Int) (l : List Value) :
    ∀ v ∈ (trimBack e l).getLast?, ¬ e < v.datetime.instant := by
  intro v hv
  apply trimBackAux_head e l.reverse v
  simpa [trimBack, List.getLast?_reverse] using hv

/-- If a nonempty list is a prefix of another, their heads agree. -/
theorem head?_of_append {r post l : List Value} (h : r ++ post = l) :
    ∀ v ∈ r.head?, l.head? = some v := by
  intro v hv
  cases r with
  | nil => simp at hv
  | cons a as =>
    simp at hv
    subst hv
    simp [← h]

theorem trimFront_mem_ge (s : Int) :
    ∀ l : List Value, tsSorted l →
      ∀ v ∈ trimFront s l, s ≤ v.datetime.instant := by
  intro l
  induction l with
  | nil => intro _ v hv; simp [trimFront] at hv
  | cons a as ih =>
    intro hsort v hv
    rw [tsSorted, List.pairwise_cons] at hsort
    by_cases h : a.datetime.instant < s
    · exact ih hsort.2 v (by simpa [trimFront, h] using hv)
    · simp only [trimFront, h, if_false] at hv
      rcases List.mem_cons.mp hv with rfl | hmem
      · omega
      · have := hsort.1 v hmem
        omega

theorem trimBackAux_mem_le (e : Int) :
    ∀ l : List Value,
      l.Pairwise (fun a b => b.datetime.instant ≤ a.datetime.instant) →
      ∀ v ∈ trimBackAux e l, v.datetime.instant ≤ e := by
  intro l
  induction l with
  | nil => intro _ v hv; simp [trimBackAux] at hv
  | cons a as ih =>
    intro hsort v hv
    rw [List.pairwise_cons] at hsort
    by_cases h : e < a.datetime.instant
    · exact ih hsort.2 v (by simpa [trimBackAux, h] using hv)
    · simp only [trimBackAux, h, if_false] at hv
      rcases List.mem_cons.mp hv with rfl | hmem
      · omega
      · have := hsort.1 v hmem
        omega

theorem trimBack_mem_le (e : Int) (l : List Value) (hsort : tsSorted l) :
    ∀ v ∈ trimBack e l, v.datetime.instant ≤ e := by
  intro v hv
  have hrev : l.reverse.Pairwise
      (fun a b => b.datetime.instant ≤ a.datetime.instant) := by
    rw [List.pairwise_reverse]
    exact hsort
  exact trimBackAux_mem_le e l.reverse hrev v (by simpa [trimBack] using hv)

/-- The trimmed series is a contiguous segment of the input. -/
theorem trim_segment (s e : Int) (l : List Value) :
    ∃ pre post, pre ++ trim s e l ++ post = l := by
  obtain ⟨pre, hpre⟩ := trimFront_suffix s l
  obtain ⟨post, hpost⟩ := trimBack_append_eq e (trimFront s l)
  refine ⟨pre, post, ?_⟩
  rw [List.append_assoc]
  rw [show trim s e l ++ post = trimFront s l from hpost]
  exact hpre

theorem segment_sublist {r pre post l : List Value}
    (h : pre ++ r ++ post = l) : List.Sublist r l := by
  have h1 : List.Sublist r (r ++ post) := List.sublist_append_left _ _
  have h2 : List.Sublist (r ++ post) (pre ++ (r ++ post)) :=
    List.sublist_append_right _ _
  have h3 := h1.trans h2
  rwa [← List.append_assoc, h] at h3

theorem trim_sublist (s e : Int) (l : List Value) :
    List.Sublist (trim s e l) l := by
  obtain ⟨pre, post, h⟩ := trim_segment s e l
  exact segment_sublist h

theorem trimFront_sublist (s : Int) (l : List Value) :
    List.Sublist (trimFront s l) l := by
  obtain ⟨pre, hpre⟩ := trimFront_suffix s l
  have : List.Sublist (trimFront s l) (pre ++ trimFront s l) :=
    List.sublist_append_right _ _
  rwa [hpre] at this

theorem trim_mem_front {s e : Int} {l : List Value} {v : Value}
    (hv : v ∈ trim s e l) : v ∈ trimFront s l := by
  obtain ⟨post, hpost⟩ := trimBack_append_eq e (trimFront s l)
  rw [← hpost]
  exact List.mem_append_left _ hv

/-- Claim C2: `_cached_values(identifier, start, end)` returns only
observations whose timestamp lies within `[start, end]`, in ascending
order, as a contiguous ordered subsequence of the underlying
day-quantized cached series; it returns the empty sequence when no
observation is in range.  Hypotheses: the underlying series is
time-ascending (the provider contract) and the request bounds carry the
same UTC offset as the observations (the `_cached_values` docstring
demands UTC datetimes; the tzinfo coercion is then instant-neutral). -/
theorem claim_C2 (values : List Value) (start_date end_date : AwareDT)
    (hsort : tsSorted values)
    (hs : ∀ v0 ∈ values.head?, start_date.offset = v0.datetime.offset)
    (he : ∀ v0 ∈ values.head?, end_date.offset = v0.datetime.offset) :
    ∃ r, _cached_values values start_date end_date = some r
      ∧ (∀ v ∈ r, start_date.instant ≤ v.datetime.instant
          ∧ v.datetime.instant ≤ end_date.instant)
      ∧ tsSorted r
      ∧ (∃ pre post, pre ++ r ++ post = values)
      ∧ ((∀ v ∈ values, ¬(start_date.instant ≤ v.datetime.instant
            ∧ v.datetime.instant ≤ end_date.instant)) → r = []) := by
  cases values with
  | nil =>
    refine ⟨[], rfl, ?_, ?_, ⟨[], [], rfl⟩, fun _ => rfl⟩
    · intro v hv; simp at hv
    · constructor
  | cons a as =>
    have hs0 := hs a (by simp)
    have he0 := he a (by simp)
    have hsi : (replaceTz start_date a.datetime.offset).instant
        = start_date.instant := by
      simp [replaceTz, AwareDT.instant, hs0]
    have hei : (replaceTz end_date a.datetime.offset).instant
        = end_date.instant := by
      simp [replaceTz, AwareDT.instant, he0]
    have hfront_sorted : tsSorted (trimFront start_date.instant (a :: as)) :=
      List.Pairwise.sublist (trimFront_sublist _ _) hsort
    have hbounds : ∀ v ∈ trim start_date.instant end_date.instant (a :: as),
        start_date.instant ≤ v.datetime.instant
          ∧ v.datetime.instant ≤ end_date.instant := by
      intro v hv
      exact ⟨trimFront_mem_ge _ _ hsort v (trim_mem_front hv),
             trimBack_mem_le _ _ hfront_sorted v hv⟩
    refine ⟨trim start_date.instant end_date.instant (a :: as),
      ?_, hbounds, ?_, trim_segment _ _ _, ?_⟩
    · simp [_cached_values, hsi, hei]
    · exact List.Pairwise.sublist (trim_sublist _ _ _) hsort
    · intro hnone
      by_contra hne
      obtain ⟨v, hv⟩ := List.exists_mem_of_ne_nil _ hne
      exact hnone v ((trim_sublist _ _ _).mem hv) (hbounds v hv)

/-- Witness for C2: a three-point UTC series trimmed to `[5, 20]` keeps
the middle segment. -/
theorem claim_C2_witness :
    tsSorted [⟨⟨0, 0⟩, 1, "mm/h"⟩, ⟨⟨10, 0⟩, 2, "mm/h"⟩, ⟨⟨30, 0⟩, 3, "mm/h"⟩]
    ∧ (∀ v0 ∈ ([⟨⟨0, 0⟩, 1, "mm/h"⟩, ⟨⟨10, 0⟩, 2, "mm/h"⟩,
          ⟨⟨30, 0⟩, 3, "mm/h"⟩] : List Value).head?,
        (⟨5, 0⟩ : AwareDT).offset = v0.datetime.offset)
    ∧ (∃ r, _cached_values
          [⟨⟨0, 0⟩, 1, "mm/h"⟩, ⟨⟨10, 0⟩, 2, "mm/h"⟩, ⟨⟨30, 0⟩, 3, "mm/h"⟩]
          ⟨5, 0⟩ ⟨20, 0⟩ = some r
        ∧ (∀ v ∈ r, (⟨5, 0⟩ : AwareDT).instant ≤ v.datetime.instant
            ∧ v.datetime.instant ≤ (⟨20, 0⟩ : AwareDT).instant)
        ∧ tsSorted r
        ∧ (∃ pre post, pre ++ r ++ post
            = [⟨⟨0, 0⟩, 1, "mm/h"⟩, ⟨⟨10, 0⟩, 2, "mm/h"⟩, ⟨⟨30, 0⟩, 3, "mm/h"⟩])
        ∧ ((∀ v ∈ ([⟨⟨0, 0⟩, 1, "mm/h"⟩, ⟨⟨10, 0⟩, 2, "mm/h"⟩,
              ⟨⟨30, 0⟩, 3, "mm/h"⟩] : List Value),
            ¬((⟨5, 0⟩ : AwareDT).instant ≤ v.datetime.instant
              ∧ v.datetime.instant ≤ (⟨20, 0⟩ : AwareDT).instant)) → r = [])) := by
  refine ⟨?_, ?_, claim_C2 _ _ _ ?_ ?_ ?_⟩ <;> decide

/-- Claim C4: `_t_to_string` yields `"-"` for an undefined return period,
`"T = %i"` (integer-formatted) for `T > 1`, and `"T ≤ 1"` otherwise; in
particular `T = 1.0` gives `"T ≤ 1"`, `T = 1.0001` gives `"T = 1"` and
`T = None` gives `"-"`. -/
theorem claim_C4 (t1 : ℚ) (h1 : 1 < t1) (t2 : ℚ) (h2 : ¬ 1 < t2) :
    _t_to_string none = "-"
    ∧ _t_to_string (some t1) = "T = " ++ toString (ratTrunc t1)
    ∧ _t_to_string (some t2) = "T ≤ 1"
    ∧ _t_to_string (some 1) = "T ≤ 1"
    ∧ _t_to_string (some (10001 / 10000)) = "T = 1" := by
  refine ⟨rfl, ?_, ?_, ?_, ?_⟩
  · simp [_t_to_string, h1]
  · simp [_t_to_string, h2]
  · norm_num [_t_to_string]
  · have hlt : (1 : ℚ) < 10001 / 10000 := by norm_num
    have hge : (0 : ℚ) ≤ 10001 / 10000 := by norm_num
    have hfl : ⌊(10001 / 10000 : ℚ)⌋ = 1 := by norm_num
    simp only [_t_to_string, ratTrunc, hlt, hge, hfl, if_true, if_pos]
    decide

/-- Witness for C4 at `t1 = 2` and `t2 = 1`. -/
theorem claim_C4_witness :
    _t_to_string none = "-"
    ∧ _t_to_string (some 2) = "T = " ++ toString (ratTrunc 2)
    ∧ _t_to_string (some 1) = "T ≤ 1"
    ∧ _t_to_string (some 1) = "T ≤ 1"
    ∧ _t_to_string (some (10001 / 10000)) = "T = 1" :=
  claim_C4 2 (by norm_num) 1 (by norm_num)

/-- Claim C6: Two requests agreeing on source id, filter key, parameter
key and location whose start dates share a calendar day and whose end
dates share a calendar day produce the same cache key: the key uses
start floored to midnight and the midnight after end's day, not the
exact bounds. -/
theorem claim_C6 (jid : Int) (fk pk loc : String)
    (s1 e1 s2 e2 : AwareDT)
    (hs : s1.wall.fdiv 86400 = s2.wall.fdiv 86400)
    (he : e1.wall.fdiv 86400 = e2.wall.fdiv 86400) :
    cache_key jid fk pk loc s1 e1 = cache_key jid fk pk loc s2 e2 := by
  simp [cache_key, floorToMidnight, hs, he]

/-- Witness for C6: requests `[05:00, 18:00]` and `[02:00, 20:00]` of
the same day produce one cache key. -/
theorem claim_C6_witness :
    (18000 : Int).fdiv 86400 = (7200 : Int).fdiv 86400
    ∧ (64800 : Int).fdiv 86400 = (72000 : Int).fdiv 86400
    ∧ cache_key 1 "f" "p" "loc" ⟨18000, 0⟩ ⟨64800, 0⟩
        = cache_key 1 "f" "p" "loc" ⟨7200, 0⟩ ⟨72000, 0⟩ :=
  ⟨by decide, by decide,
   claim_C6 1 "f" "p" "loc" ⟨18000, 0⟩ ⟨64800, 0⟩ ⟨7200, 0⟩ ⟨72000, 0⟩
     (by decide) (by decide)⟩

/-- Claim C8: The trimming step of `_cached_values` is idempotent:
re-trimming an already-trimmed series with the same start and end
bounds returns it unchanged. -/
theorem claim_C8 (s e : Int) (l : List Value) :
    trim s e (trim s e l) = trim s e l := by
  have h1 : trimFront s (trim s e l) = trim s e l := by
    apply trimFront_eq_self
    intro v hv
    obtain ⟨post, hpost⟩ := trimBack_append_eq e (trimFront s l)
    exact trimFront_head s l v (head?_of_append hpost v hv)
  have h2 : trimBack e (trim s e l) = trim s e l := by
    apply trimBack_eq_self
    intro v hv
    exact trimBack_getLast e (trimFront s l) v hv
  calc trim s e (trim s e l) = trimBack e (trimFront s (trim s e l)) := rfl
    _ = trimBack e (trim s e l) := by rw [h1]
    _ = trim s e l := h2

/-- Claim C9: On an empty underlying series `_cached_values` returns the
empty sequence via the guard, never reaching the timezone coercion that
indexes `values[0]`: the result is `some []`, not the `none` that models
an `IndexError`. -/
theorem claim_C9 (start_date end_date : AwareDT) :
    _cached_values [] start_date end_date = some [] := rfl

/-- Claim C10: `_cached_values` unconditionally replaces the tzinfo of
`start_date` and `end_date` with the first observation's tzinfo while
keeping the wall-clock fields, and trims against the instants of the
coerced bounds; when an aware bound's offset differs from the
observations' offset the coerced bound denotes a different instant. -/
theorem claim_C10 (values : List Value) (v0 : Value)
    (start_date end_date : AwareDT) (hh : values.head? = some v0) :
    _cached_values values start_date end_date
      = some (trim (replaceTz start_date v0.datetime.offset).instant
                   (replaceTz end_date v0.datetime.offset).instant values)
    ∧ (replaceTz start_date v0.datetime.offset).wall = start_date.wall
    ∧ (replaceTz end_date v0.datetime.offset).wall = end_date.wall
    ∧ (start_date.offset ≠ v0.datetime.offset →
        (replaceTz start_date v0.datetime.offset).instant
          ≠ start_date.instant) := by
  cases values with
  | nil => simp at hh
  | cons a as =>
    simp only [List.head?_cons, Option.some.injEq] at hh
    subst hh
    refine ⟨?_, rfl, rfl, ?_⟩
    · simp [_cached_values]
    · intro hne
      simp only [replaceTz, AwareDT.instant]
      omega

/-- Witness for C10: a single observation carrying offset `+3600`
against UTC bounds. -/
theorem claim_C10_witness :
    ([⟨⟨0, 3600⟩, 1, "mm/h"⟩] : List Value).head?
        = some ⟨⟨0, 3600⟩, 1, "mm/h"⟩
    ∧ (_cached_values [⟨⟨0, 3600⟩, 1, "mm/h"⟩] ⟨0, 0⟩ ⟨10, 0⟩
          = some (trim (replaceTz ⟨0, 0⟩ 3600).instant
              (replaceTz ⟨10, 0⟩ 3600).instant [⟨⟨0, 3600⟩, 1, "mm/h"⟩])
        ∧ (replaceTz ⟨0, 0⟩ 3600).wall = (⟨0, 0⟩ : AwareDT).wall
        ∧ (replaceTz ⟨10, 0⟩ 3600).wall = (⟨10, 0⟩ : AwareDT).wall
        ∧ ((⟨0, 0⟩ : AwareDT).offset
              ≠ (⟨⟨0, 3600⟩, 1, "mm/h"⟩ : Value).datetime.offset →
            (replaceTz ⟨0, 0⟩ 3600).instant ≠ (⟨0, 0⟩ : AwareDT).instant)) :=
  ⟨rfl, claim_C10 [⟨⟨0, 3600⟩, 1, "mm/h"⟩] ⟨⟨0, 3600⟩, 1, "mm/h"⟩
    ⟨0, 0⟩ ⟨10, 0⟩ rfl⟩

/-! ### The moving-sum result entries and python `max(key=...)` -/

/-- One entry of the `moving_sum` result sequence: the rolling sum for
the window `[datetime_start_utc, datetime_end_utc)` (instants). -/
structure MaxEntry where
  value : ℚ
  datetime_start_utc : Int
  datetime_end_utc : Int
deriving DecidableEq

/-- One comparison step of python `max(iterable, key=...)`: the running
best is replaced only when the new key is strictly greater, so the
first-encountered maximum survives. -/
def pyMaxStep (f : MaxEntry → ℚ) (best y : MaxEntry) : MaxEntry :=
  if f best < f y then y else best

/-- Python `max(max_values, key=lambda i: i['value'])` as used by
`rain_stats` (layers.py line 423), keyed by `f`; `none` models the
`ValueError` on an empty sequence (unreachable behind the
`if max_values:` guard). -/
def pyMaxBy (f : MaxEntry → ℚ) : List MaxEntry → Option MaxEntry
  | [] => none
  | x :: xs => some (xs.foldl (pyMaxStep f) x)

/-- Whether `x` attains the maximal key among the entries of `l`. -/
def isMaxIn (f : MaxEntry → ℚ) (l : List MaxEntry) (x : MaxEntry) : Bool :=
  l.all (fun y => decide (f y ≤ f x))

/-- The first element of `l` attaining the maximal key: the reference
"first-maximum" semantics. -/
def firstMaxBy (f : MaxEntry → ℚ) (l : List MaxEntry) : Option MaxEntry :=
  l.find? (isMaxIn f l)

theorem bool_eq_of_iff {a b : Bool} (h : a = true ↔ b = true) : a = b := by
  cases a <;> cases b <;> simp_all

theorem isMaxIn_iff (f : MaxEntry → ℚ) (l : List MaxEntry) (x : MaxEntry) :
    isMaxIn f l x = true ↔ ∀ y ∈ l, f y ≤ f x := by
  simp [isMaxIn]

theorem find?_congr {α : Type} {p q : α → Bool} :
    ∀ l : List α, (∀ x ∈ l, p x = q x) → l.find? p = l.find? q := by
  intro l
  induction l with
  | nil => intro _; rfl
  | cons a as ih =>
    intro h
    have ha : p a = q a := h a (by simp)
    cases hpa : p a with
    | true =>
      rw [List.find?_cons_of_pos _ hpa, List.find?_cons_of_pos _ (ha ▸ hpa)]
    | false =>
      rw [List.find?_cons_of_neg _ (by simp [hpa]),
          List.find?_cons_of_neg _ (by simp [← ha, hpa])]
      exact ih (fun x hx => h x (List.mem_cons_of_mem a hx))

theorem foldl_pyMaxStep_eq (f : MaxEntry → ℚ) :
    ∀ (xs : List MaxEntry) (b : MaxEntry),
      (b :: xs).find? (isMaxIn f (b :: xs))
        = some (xs.foldl (pyMaxStep f) b) := by
  intro xs
  induction xs with
  | nil =>
    intro b
    have : isMaxIn f [b] b = true := by
      rw [isMaxIn_iff]; intro y hy; simp at hy; subst hy; exact le_refl _
    simp [List.find?_cons_of_pos _ this]
  | cons y ys ih =>
    intro b
    by_cases hlt : f b < f y
    · -- the running best is replaced by y
      have hstep : pyMaxStep f b y = y := by simp [pyMaxStep, hlt]
      have hb : isMaxIn f (b :: y :: ys) b = false := by
        apply Bool.eq_false_iff.mpr
        intro hmax
        have := (isMaxIn_iff f _ b).mp hmax y (by simp)
        exact absurd hlt (not_lt.mpr this)
      have hpt : ∀ x ∈ y :: ys,
          isMaxIn f (b :: y :: ys) x = isMaxIn f (y :: ys) x := by
        intro x _
        apply bool_eq_of_iff
        rw [isMaxIn_iff, isMaxIn_iff]
        constructor
        · intro h z hz
          exact h z (List.mem_cons_of_mem b hz)
        · intro h z hz
          rcases List.mem_cons.mp hz with rfl | hz'
          · have hy := h y (by simp)
            exact le_trans (le_of_lt hlt) hy
          · exact h z hz'
      rw [List.find?_cons_of_neg _ (by simp [hb])]
      rw [find?_congr (y :: ys) hpt]
      rw [ih y]
      simp [List.foldl_cons, hstep]
    · -- the running best survives
      have hyb : f y ≤ f b := not_lt.mp hlt
      have hstep : pyMaxStep f b y = b := by simp [pyMaxStep, hlt]
      have hpt : ∀ x, isMaxIn f (b :: y :: ys) x = isMaxIn f (b :: ys) x := by
        intro x
        apply bool_eq_of_iff
        rw [isMaxIn_iff, isMaxIn_iff]
        constructor
        · intro h z hz
          rcases List.mem_cons.mp hz with rfl | hz'
          · exact h z (by simp)
          · exact h z (by simp [hz'])
        · intro h z hz
          rcases List.mem_cons.mp hz with rfl | hz'
          · exact h z (by simp)
          · rcases List.mem_cons.mp hz' with rfl | hz''
            · have hb := h b (by simp)
              exact le_trans hyb hb
            · exact h z (by simp [hz''])
      have hcongr : (b :: y :: ys).find? (isMaxIn f (b :: y :: ys))
          = (b :: y :: ys).find? (isMaxIn f (b :: ys)) :=
        find?_congr _ (fun x _ => hpt x)
      rw [hcongr]
      cases hb : isMaxIn f (b :: ys) b with
      | true =>
        rw [List.find?_cons_of_pos _ hb, List.foldl_cons, hstep]
        have := ih b
        rw [List.find?_cons_of_pos _ hb] at this
        exact this
      | false =>
        have hy : isMaxIn f (b :: ys) y = false := by
          apply Bool.eq_false_iff.mpr
          intro hmax
          have hall := (isMaxIn_iff f _ y).mp hmax
          have : isMaxIn f (b :: ys) b = true := by
            rw [isMaxIn_iff]
            intro z hz
            exact le_trans (hall z hz) hyb
          simp [this] at hb
        rw [List.find?_cons_of_neg _ (by simp [hb]),
            List.find?_cons_of_neg _ (by simp [hy])]
        have := ih b
        rw [List.find?_cons_of_neg _ (by simp [hb])] at this
        rw [this]
        simp [List.foldl_cons, hstep]

/-- Claim C7: The `max` call of `rain_stats` (python
`max(max_values, key=lambda i: i['value'])`, embedded as `pyMaxBy`)
returns the first-encountered maximal entry: it agrees with
`firstMaxBy`, which picks the earliest entry attaining the maximal
value, so ties go to the earliest `windowStart`. -/
theorem claim_C7 (max_values : List MaxEntry) :
    pyMaxBy (fun i => i.value) max_values
      = firstMaxBy (fun i => i.value) max_values := by
  cases max_values with
  | nil => rfl
  | cons x xs =>
    rw [pyMaxBy, firstMaxBy, foldl_pyMaxStep_eq]

/-! ### The two-pointer moving sum

`moving_sum` lives in `lizard_rainapp/calculations.py`, which is not
part of the sources at hand; the definitions below are modelled from
the spec.  Modelled from the spec: the missing `moving_sum` of
`lizard_rainapp.calculations`, per §4.2 — maintain `minIndex`,
`maxIndex` and a running `sum`; for each window `[ws, ws + d)` stepped
hourly from `rangeStart`, advance `maxIndex` over observations with
timestamp strictly below `ws + d` (adding values), advance `minIndex`
while below `maxIndex` over observations with timestamp strictly below
`ws` (subtracting values), and record `{sum, windowStart}`; windows end
once `windowStart + d` would exceed `rangeEnd + 2s`.  (The source
passes the sample interval `td_value` as an extra argument; the spec
assigns it no role in the sum, so it is omitted here.) -/

/-- Number of leading observations with instant strictly below `c` (the
resting point of each pointer of the two-pointer sweep). -/
def prefLT (c : Int) : List Value → Nat
  | [] => 0
  | v :: vs => if v.datetime.instant < c then prefLT c vs + 1 else 0

/-- Sum of the values of the index segment `[a, b)` of `l`. -/
def segSum (l : List Value) (a b : Nat) : ℚ :=
  (((l.drop a).take (b - a)).map (fun v => v.value)).sum

/-- Brute-force window sum: the sum of the values of all observations
whose instant lies in `[lo, hi)`. -/
def bruteSum (l : List Value) (lo hi : Int) : ℚ :=
  ((l.filter (fun v =>
      decide (lo ≤ v.datetime.instant) && decide (v.datetime.instant < hi))).map
    (fun v => v.value)).sum

/-- Modelled from the spec: the `maxIndex` advance of the missing
`moving_sum` — while the next observation's timestamp is strictly less
than `limit`, add its value to the running sum and move on. -/
def advanceMax (l : List Value) (limit : Int) (maxI : Nat) (s : ℚ) :
    Nat × ℚ :=
  if h : maxI < l.length then
    if l[maxI].datetime.instant < limit then
      advanceMax l limit (maxI + 1) (s + l[maxI].value)
    else (maxI, s)
  else (maxI, s)
termination_by l.length - maxI
decreasing_by omega

/-- Modelled from the spec: the `minIndex` advance of the missing
`moving_sum` — while `minIndex < maxIndex` and the observation at
`minIndex` has a timestamp strictly less than `ws`, subtract its value
from the running sum and move on. -/
def advanceMin (l : List Value) (ws : Int) (minI maxI : Nat) (s : ℚ) :
    Nat × ℚ :=
  if _h : minI < maxI then
    match l[minI]? with
    | some v =>
      if v.datetime.instant < ws then
        advanceMin l ws (minI + 1) maxI (s - v.value)
      else (minI, s)
    | none => (minI, s)
  else (minI, s)
termination_by maxI - minI
decreasing_by omega

/-- Modelled from the spec: the per-window loop of the missing
`moving_sum`, carrying `(minIndex, maxIndex, sum)` across the stepped
windows and recording one entry per window. -/
def msLoop (l : List Value) (d : Int) :
    List Int → Nat → Nat → ℚ → List MaxEntry
  | [], _, _, _ => []
  | ws :: rest, minI, maxI, s =>
    let m := advanceMax l (ws + d) maxI s
    let n := advanceMin l ws minI m.1 m.2
    { value := n.2, datetime_start_utc := ws, datetime_end_utc := ws + d }
      :: msLoop l d rest n.1 m.1 n.2

/-- Modelled from the spec: the hour-stepped window starts — `ws` runs
from `rangeStart` in steps of one hour while `ws + d ≤ rangeEnd + 2s`
(`re2` is `rangeEnd` with the 2-second tolerance already added). -/
def windowStartsFrom (re2 d ws : Int) : List Int :=
  if ws + d ≤ re2 then ws :: windowStartsFrom re2 d (ws + 3600)
  else []
termination_by (re2 - d - ws + 3600).toNat
decreasing_by omega

/-- Modelled from the spec: the missing
`moving_sum(values, td_window, td_value, start_date, end_date)` of
`lizard_rainapp.calculations` (datetimes as instants). -/
def moving_sum (values : List Value) (td_window : Int)
    (start_date_utc end_date_utc : Int) : List MaxEntry :=
  msLoop values td_window
    (windowStartsFrom (end_date_utc + 2) td_window start_date_utc) 0 0 0

/-! ### Pointer bookkeeping for the two-pointer sweep -/

theorem prefLT_le_length (c : Int) :
    ∀ l : List Value, prefLT c l ≤ l.length := by
  intro l
  induction l with
  | nil => exact Nat.le_refl 0
  | cons v vs ih =>
    by_cases h : v.datetime.instant < c
    · simp [prefLT, h]; omega
    · simp [prefLT, h]

theorem prefLT_mono {c1 c2 : Int} (h : c1 ≤ c2) :
    ∀ l : List Value, prefLT c1 l ≤ prefLT c2 l := by
  intro l
  induction l with
  | nil => exact Nat.le_refl 0
  | cons v vs ih =>
    by_cases h1 : v.datetime.instant < c1
    · have h2 : v.datetime.instant < c2 := lt_of_lt_of_le h1 h
      simp [prefLT, h1, h2]; omega
    · simp [prefLT, h1]

theorem instant_lt_of_lt_prefLT (c : Int) :
    ∀ (l : List Value) (i : Nat), i < prefLT c l →
      ∃ v, l[i]? = some v ∧ v.datetime.instant < c := by
  intro l
  induction l with
  | nil => intro i hi; simp [prefLT] at hi
  | cons v vs ih =>
    intro i hi
    by_cases h : v.datetime.instant < c
    · cases i with
      | zero => exact ⟨v, by simp, h⟩
      | succ j =>
        simp only [prefLT, h, if_true] at hi
        obtain ⟨w, hw, hwc⟩ := ih j (by omega)
        exact ⟨w, by simpa using hw, hwc⟩
    · simp [prefLT, h] at hi

theorem not_lt_at_prefLT (c : Int) :
    ∀ (l : List Value) (v : Value), l[prefLT c l]? = some v →
      ¬ v.datetime.instant < c := by
  intro l
  induction l with
  | nil => intro v hv; simp at hv
  | cons w ws ih =>
    intro v hv
    by_cases h : w.datetime.instant < c
    · simp only [prefLT, h, if_true, List.getElem?_cons_succ] at hv
      exact ih v hv
    · simp only [prefLT, h, if_false, List.getElem?_cons_zero,
        Option.some.injEq] at hv
      subst hv; exact h

theorem segSum_self (l : List Value) (a : Nat) : segSum l a a = 0 := by
  simp [segSum]

theorem segSum_zero_of_len_le (l : List Value) {a : Nat} (b : Nat)
    (h : l.length ≤ a) : segSum l a b = 0 := by
  simp [segSum, List.drop_eq_nil_of_le h]

theorem segSum_step (l : List Value) (a b : Nat) (h : a < l.length)
    (hab : a < b) : segSum l a b = l[a].value + segSum l (a + 1) b := by
  rw [segSum, segSum, List.drop_eq_getElem_cons h,
      show b - a = (b - (a + 1)) + 1 by omega,
      List.take_succ_cons, List.map_cons, List.sum_cons]

theorem segSum_add (l : List Value) :
    ∀ (n a b c : Nat), b - a = n → a ≤ b → b ≤ c →
      segSum l a b + segSum l b c = segSum l a c := by
  intro n
  induction n with
  | zero =>
    intro a b c hn hab _
    have : b = a := by omega
    subst this
    rw [segSum_self, zero_add]
  | succ n ih =>
    intro a b c hn hab hbc
    have hab' : a < b := by omega
    by_cases h : a < l.length
    · rw [segSum_step l a b h hab', segSum_step l a c h (by omega)]
      have := ih (a + 1) b c (by omega) (by omega) hbc
      linarith
    · rw [segSum_zero_of_len_le l b (by omega),
          segSum_zero_of_len_le l c (by omega),
          segSum_zero_of_len_le l c (by omega)]
      norm_num

theorem advanceMax_eq (l : List Value) (limit : Int) :
    ∀ (n maxI : Nat) (s : ℚ), prefLT limit l = maxI + n →
      advanceMax l limit maxI s
        = (prefLT limit l, s + segSum l maxI (prefLT limit l)) := by
  intro n
  induction n with
  | zero =>
    intro maxI s hpre
    have hmax : prefLT limit l = maxI := by omega
    rw [advanceMax]
    by_cases h : maxI < l.length
    · rw [dif_pos h]
      have hnot := not_lt_at_prefLT limit l (l[maxI])
        (by rw [hmax]; exact List.getElem?_eq_getElem h)
      rw [if_neg hnot, hmax, segSum_self, add_zero]
    · rw [dif_neg h, hmax, segSum_self, add_zero]
  | succ n ih =>
    intro maxI s hpre
    have hlt : maxI < prefLT limit l := by omega
    have hlen : maxI < l.length :=
      lt_of_lt_of_le hlt (prefLT_le_length limit l)
    obtain ⟨v, hv, hvc⟩ := instant_lt_of_lt_prefLT limit l maxI hlt
    rw [List.getElem?_eq_getElem hlen, Option.some.injEq] at hv
    subst hv
    rw [advanceMax, dif_pos hlen, if_pos hvc,
        ih (maxI + 1) (s + l[maxI].value) (by omega)]
    have hstep := segSum_step l maxI (prefLT limit l) hlen hlt
    rw [Prod.mk.injEq]
    constructor
    · rfl
    · rw [hstep]; ring

theorem advanceMin_eq (l : List Value) (ws : Int) (maxI : Nat)
    (hmax : maxI ≤ l.length) (hple : prefLT ws l ≤ maxI) :
    ∀ (n minI : Nat) (s : ℚ), prefLT ws l = minI + n →
      advanceMin l ws minI maxI s
        = (prefLT ws l, s - segSum l minI (prefLT ws l)) := by
  intro n
  induction n with
  | zero =>
    intro minI s hpre
    have hmin : prefLT ws l = minI := by omega
    rw [advanceMin]
    by_cases h : minI < maxI
    · rw [dif_pos h]
      have hlen : minI < l.length := lt_of_lt_of_le h hmax
      have hget : l[minI]? = some (l[minI]) := List.getElem?_eq_getElem hlen
      have hnot := not_lt_at_prefLT ws l (l[minI]) (by rw [hmin]; exact hget)
      rw [hget]
      simp only [if_neg hnot]
      rw [hmin, segSum_self, sub_zero]
    · rw [dif_neg h, hmin, segSum_self, sub_zero]
  | succ n ih =>
    intro minI s hpre
    have hlt : minI < prefLT ws l := by omega
    have hlen : minI < l.length :=
      lt_of_lt_of_le hlt (le_trans hple hmax)
    obtain ⟨v, hv, hvc⟩ := instant_lt_of_lt_prefLT ws l minI hlt
    rw [List.getElem?_eq_getElem hlen, Option.some.injEq] at hv
    subst hv
    rw [advanceMin, dif_pos (by omega : minI < maxI),
        List.getElem?_eq_getElem hlen]
    simp only [if_pos hvc]
    rw [ih (minI + 1) (s - l[minI].value) (by omega)]
    have hstep := segSum_step l minI (prefLT ws l) hlen hlt
    rw [Prod.mk.injEq]
    constructor
    · rfl
    · rw [hstep]; ring

/-- For a sorted series the index segment between the pointer resting
points is exactly the brute-force window content. -/
theorem segSum_prefLT_eq_bruteSum (lo hi : Int) (hlh : lo ≤ hi) :
    ∀ l : List Value, tsSorted l →
      segSum l (prefLT lo l) (prefLT hi l) = bruteSum l lo hi := by
  intro l
  induction l with
  | nil => intro _; simp [segSum, bruteSum]
  | cons v vs ih =>
    intro hsort
    rw [tsSorted, List.pairwise_cons] at hsort
    obtain ⟨hrel, htail⟩ := hsort
    by_cases h1 : v.datetime.instant < lo
    · have h2 : v.datetime.instant < hi := lt_of_lt_of_le h1 hlh
      have hseg : segSum (v :: vs) (prefLT lo vs + 1) (prefLT hi vs + 1)
          = segSum vs (prefLT lo vs) (prefLT hi vs) := by
        simp [segSum, Nat.succ_sub_succ]
      simp only [prefLT, h1, h2, if_true]
      rw [hseg, ih htail]
      have hv : (decide (lo ≤ v.datetime.instant)
          && decide (v.datetime.instant < hi)) = false := by
        simp; omega
      simp [bruteSum, List.filter_cons, hv]
    · by_cases h2 : v.datetime.instant < hi
      · have hlo : lo ≤ v.datetime.instant := not_lt.mp h1
        have hlovs : prefLT lo vs = 0 := by
          cases vs with
          | nil => rfl
          | cons w wss =>
            have := hrel w (by simp)
            simp only [prefLT, if_neg (by omega : ¬ w.datetime.instant < lo)]
        simp only [prefLT, h1, h2, if_true, if_false]
        have hseg : segSum (v :: vs) 0 (prefLT hi vs + 1)
            = v.value + segSum vs 0 (prefLT hi vs) := by
          simp [segSum, List.take_succ_cons]
        rw [hseg]
        have hih := ih htail
        rw [hlovs] at hih
        rw [hih]
        have hv : (decide (lo ≤ v.datetime.instant)
            && decide (v.datetime.instant < hi)) = true := by
          simp; omega
        simp [bruteSum, List.filter_cons, hv]
      · have hhi : hi ≤ v.datetime.instant := not_lt.mp h2
        have hlo : ¬ v.datetime.instant < lo := by omega
        simp only [prefLT, hlo, h2, if_false]
        rw [segSum_self]
        have hv : (decide (lo ≤ v.datetime.instant)
            && decide (v.datetime.instant < hi)) = false := by
          simp; omega
        have hrest : List.filter (fun w =>
            decide (lo ≤ w.datetime.instant)
              && decide (w.datetime.instant < hi)) vs = [] := by
          rw [List.filter_eq_nil_iff]
          intro w hw
          have := hrel w hw
          simp; omega
        simp [bruteSum, List.filter_cons, hv, hrest]

theorem windowStartsFrom_head (re2 d ws : Int) :
    ∀ x ∈ (windowStartsFrom re2 d ws).head?, x = ws := by
  intro x hx
  rw [windowStartsFrom] at hx
  split at hx
  · simp at hx; omega
  · simp at hx

theorem windowStartsFrom_chain_aux (re2 d : Int) :
    ∀ (n : Nat) (ws : Int), (re2 - d - ws + 3600).toNat ≤ n →
      List.Chain' (fun a b => a ≤ b) (windowStartsFrom re2 d ws) := by
  intro n
  induction n with
  | zero =>
    intro ws hle
    rw [windowStartsFrom, if_neg (by omega)]
    exact List.chain'_nil
  | succ n ih =>
    intro ws hle
    rw [windowStartsFrom]
    split
    · rw [List.chain'_cons']
      refine ⟨?_, ih (ws + 3600) (by omega)⟩
      intro y hy
      have := windowStartsFrom_head re2 d (ws + 3600) y hy
      omega
    · exact List.chain'_nil

theorem windowStartsFrom_chain (re2 d ws : Int) :
    List.Chain' (fun a b => a ≤ b) (windowStartsFrom re2 d ws) :=
  windowStartsFrom_chain_aux re2 d _ ws (Nat.le_refl _)

/-- Invariant-carrying form of the per-window loop: starting from any
state whose pointers sit at or before their resting points for the next
window, the loop emits exactly the brute-force sums. -/
theorem msLoop_spec (l : List Value) (hsort : tsSorted l) (d : Int)
    (hd : 0 ≤ d) :
    ∀ (wss : List Int), List.Chain' (fun a b => a ≤ b) wss →
    ∀ (minI maxI : Nat) (s : ℚ), minI ≤ maxI → maxI ≤ l.length →
      (∀ w ∈ wss.head?, minI ≤ prefLT w l ∧ maxI ≤ prefLT (w + d) l) →
      s = segSum l minI maxI →
      msLoop l d wss minI maxI s
        = wss.map (fun ws =>
            { value := bruteSum l ws (ws + d),
              datetime_start_utc := ws, datetime_end_utc := ws + d }) := by
  intro wss
  induction wss with
  | nil => intro _ minI maxI s _ _ _ _; rfl
  | cons ws rest ih =>
    intro hchain minI maxI s hmm hml hhead hs
    obtain ⟨hminI, hmaxI⟩ := hhead ws (by simp)
    rw [List.chain'_cons'] at hchain
    obtain ⟨hrel, hchain'⟩ := hchain
    have hP_le : prefLT (ws + d) l ≤ l.length := prefLT_le_length _ l
    have hws_le : prefLT ws l ≤ prefLT (ws + d) l :=
      prefLT_mono (by omega) l
    have hmaxeq := advanceMax_eq l (ws + d)
      (prefLT (ws + d) l - maxI) maxI s (by omega)
    have hsum1 : s + segSum l maxI (prefLT (ws + d) l)
        = segSum l minI (prefLT (ws + d) l) := by
      rw [hs]
      exact segSum_add l (maxI - minI) minI maxI (prefLT (ws + d) l)
        rfl hmm (by omega)
    have hmineq := advanceMin_eq l ws (prefLT (ws + d) l) hP_le hws_le
      (prefLT ws l - minI) minI (segSum l minI (prefLT (ws + d) l))
      (by omega)
    have hsum2 : segSum l minI (prefLT (ws + d) l)
        - segSum l minI (prefLT ws l)
        = segSum l (prefLT ws l) (prefLT (ws + d) l) := by
      have := segSum_add l (prefLT ws l - minI) minI (prefLT ws l)
        (prefLT (ws + d) l) rfl (by omega) hws_le
      linarith
    simp only [msLoop, hmaxeq, hsum1, hmineq, hsum2]
    rw [List.map_cons]
    congr 1
    · rw [segSum_prefLT_eq_bruteSum ws (ws + d) (by omega) l hsort]
    · rw [ih hchain' (prefLT ws l) (prefLT (ws + d) l)
        (segSum l (prefLT ws l) (prefLT (ws + d) l)) hws_le hP_le ?_ rfl]
      intro w hw
      have hwsw : ws ≤ w := hrel w hw
      exact ⟨le_trans (le_refl _) (prefLT_mono hwsw l),
             prefLT_mono (by omega) l⟩

/-- Claim C1: The incremental two-pointer `moving_sum`, as invoked by
`rain_stats`, produces for each hour-stepped window
`[windowStart, windowStart + d)` a sum equal to the brute-force sum of
the values of all observations whose timestamp lies in that window. -/
theorem claim_C1 (values : List Value) (hsort : tsSorted values)
    (td_window rs re : Int) (hd : 0 ≤ td_window) :
    moving_sum values td_window rs re
      = (windowStartsFrom (re + 2) td_window rs).map
          (fun ws =>
            { value := bruteSum values ws (ws + td_window),
              datetime_start_utc := ws,
              datetime_end_utc := ws + td_window }) := by
  rw [moving_sum]
  exact msLoop_spec values hsort td_window hd _
    (windowStartsFrom_chain _ _ _) 0 0 0 (Nat.le_refl 0)
    (Nat.zero_le _) (fun w _ => ⟨Nat.zero_le _, Nat.zero_le _⟩)
    (segSum_self values 0).symm

/-- Witness for C1: the spec's concrete scenario — observations of 2, 3
and 1 mm at t0, t0+1h, t0+2h, a 2-hour window over `[0, 7202]`. -/
theorem claim_C1_witness :
    tsSorted [⟨⟨0, 0⟩, 2, "mm/hr"⟩, ⟨⟨3600, 0⟩, 3, "mm/hr"⟩,
      ⟨⟨7200, 0⟩, 1, "mm/hr"⟩]
    ∧ (0 : Int) ≤ 7200
    ∧ moving_sum [⟨⟨0, 0⟩, 2, "mm/hr"⟩, ⟨⟨3600, 0⟩, 3, "mm/hr"⟩,
          ⟨⟨7200, 0⟩, 1, "mm/hr"⟩] 7200 0 7202
        = (windowStartsFrom (7202 + 2) 7200 0).map
            (fun ws =>
              { value := bruteSum [⟨⟨0, 0⟩, 2, "mm/hr"⟩,
                  ⟨⟨3600, 0⟩, 3, "mm/hr"⟩, ⟨⟨7200, 0⟩, 1, "mm/hr"⟩]
                  ws (ws + 7200),
                datetime_start_utc := ws, datetime_end_utc := ws + 7200 }) :=
  ⟨by decide, by decide,
   claim_C1 [⟨⟨0, 0⟩, 2, "mm/hr"⟩, ⟨⟨3600, 0⟩, 3, "mm/hr"⟩,
     ⟨⟨7200, 0⟩, 1, "mm/hr"⟩] (by decide) 7200 0 7202 (by decide)⟩

/-! ### `rain_stats` and the graph bar-width policy -/

/-- One row of the popup table returned by `rain_stats`
(`{'td_window': ..., 'max': ..., 'start': ..., 'end': ..., 't': ...}`,
layers.py lines 444-449); `start`/`end` are instants (python
`astimezone` to the site timezone preserves the instant). -/
structure RainStatRow where
  td_window : Int
  max : Option ℚ
  start : Option Int
  «end» : Option Int
  t : String
deriving DecidableEq

/-- Embeds `RainAppAdapter.rain_stats` (layers.py lines 394-449).  The
external `herhalingstijd` of `lizard_rainapp.calculations` is a
parameter (a pure function of hours, area and rainfall, `none` for an
out-of-table result).  The unit lookup on line 415 is
`UNIT_TO_TIMEDELTA[values[0]['unit']]` — plain dict indexing — so an
absent unit raises `KeyError`, modelled by the `none` result.  `hours`
is `td_window.days * 24 + td_window.seconds / 3600.0`, i.e. the window
length in hours. -/
def rain_stats (herhalingstijd : ℚ → ℚ → ℚ → Option ℚ)
    (values : List Value) (area_km2 : ℚ) (td_window : Int)
    (start_date_utc end_date_utc : Int) : Option RainStatRow :=
  if values.isEmpty then
    some { td_window := td_window, max := none, start := none,
           «end» := none, t := _t_to_string none }
  else
    match values.head? with
    | none => none
    | some v0 =>
      match UNIT_TO_TIMEDELTA v0.unit with
      | none => none
      | some _td_value =>
        match pyMaxBy (fun i => i.value)
            (moving_sum values td_window start_date_utc end_date_utc) with
        | some max_value =>
          some { td_window := td_window, max := some max_value.value,
                 start := some max_value.datetime_start_utc,
                 «end» := some max_value.datetime_end_utc,
                 t := _t_to_string (herhalingstijd ((td_window : ℚ) / 3600)
                        area_km2 max_value.value) }
        | none =>
          some { td_window := td_window, max := none, start := none,
                 «end» := none, t := _t_to_string none }

/-- The per-series bar setup of `RainAppAdapter._render_graph`
(layers.py lines 306-323): if the first unit is in
`UNIT_TO_TIMEDELTA`, bars get a width from the graph and dates are
offset one sample interval back; otherwise the policy degrades to
zero-width bars (spikes) at the unshifted dates.  `get_bar_width`
stands for the external `graph.get_bar_width`. -/
structure BarSetup where
  bar_width : ℚ
  offset_dates : List Int
deriving DecidableEq

def renderGraphBars (get_bar_width : Int → ℚ) (rows : List Value) :
    BarSetup :=
  let dates_site_tz := rows.map (fun r => r.datetime.instant)
  let unit := match rows.head? with | some r => r.unit | none => ""
  match UNIT_TO_TIMEDELTA unit with
  | some unit_timedelta =>
      { bar_width := get_bar_width unit_timedelta,
        offset_dates := dates_site_tz.map (fun x => x + (-1) * unit_timedelta) }
  | none =>
      { bar_width := 0, offset_dates := dates_site_tz }

/-- Counterexample to claim C3 as stated: on a non-empty series whose
first unit (`"foo"`) is absent from `UNIT_TO_TIMEDELTA`, `rain_stats`
does not degrade gracefully — the bare dict indexing on layers.py line
415 raises `KeyError`, modelled by the `none` result — contradicting
"never fails the computation". -/
theorem claim_C3_counterexample :
    rain_stats (fun _ _ _ => none) [⟨⟨0, 0⟩, 1, "foo"⟩] 25 3600 0 7200
      = none := rfl

/-- Claim C3 (amended):  Only `_render_graph` degrades gracefully on a
series whose first observation's unit is absent from
`UNIT_TO_TIMEDELTA` (zero-width bar / point display policy);
`rain_stats` on such a series fails with a `KeyError` from the direct
`UNIT_TO_TIMEDELTA[...]` lookup. -/
theorem claim_C3 (g : Int → ℚ) (values : List Value) (v0 : Value)
    (hh : values.head? = some v0) (hu : UNIT_TO_TIMEDELTA v0.unit = none)
    (herh : ℚ → ℚ → ℚ → Option ℚ) (area : ℚ) (td s e : Int) :
    renderGraphBars g values
      = { bar_width := 0,
          offset_dates := values.map (fun r => r.datetime.instant) }
    ∧ rain_stats herh values area td s e = none := by
  cases values with
  | nil => simp at hh
  | cons a as =>
    simp only [List.head?_cons, Option.some.injEq] at hh
    subst hh
    constructor
    · simp [renderGraphBars, hu]
    · simp [rain_stats, hu]

/-- Witness for C3 on the series of the counterexample. -/
theorem claim_C3_witness :
    ([⟨⟨0, 0⟩, 1, "foo"⟩] : List Value).head? = some ⟨⟨0, 0⟩, 1, "foo"⟩
    ∧ UNIT_TO_TIMEDELTA (⟨⟨0, 0⟩, 1, "foo"⟩ : Value).unit = none
    ∧ (renderGraphBars (fun _ => 7) [⟨⟨0, 0⟩, 1, "foo"⟩]
          = { bar_width := 0,
              offset_dates := ([⟨⟨0, 0⟩, 1, "foo"⟩] : List Value).map
                (fun r => r.datetime.instant) }
        ∧ rain_stats (fun _ _ _ => none) [⟨⟨0, 0⟩, 1, "foo"⟩] 25 3600 0 7200
          = none) :=
  ⟨rfl, rfl,
   claim_C3 (fun _ => 7) [⟨⟨0, 0⟩, 1, "foo"⟩] ⟨⟨0, 0⟩, 1, "foo"⟩ rfl rfl
     (fun _ _ _ => none) 25 3600 0 7200⟩

/-- Claim C5: `rain_stats` returns a row with `max`, `start` and `end`
undefined and the return-period label `"-"` — as a normal value, not an
error — both on the empty series and when the moving-sum result is
empty (window longer than the available range). -/
theorem claim_C5 (herh : ℚ → ℚ → ℚ → Option ℚ) (area : ℚ)
    (td s e : Int) (values : List Value) (v0 : Value)
    (hh : values.head? = some v0) (td_value : Int)
    (hu : UNIT_TO_TIMEDELTA v0.unit = some td_value)
    (hmv : moving_sum values td s e = []) :
    rain_stats herh [] area td s e
      = some { td_window := td, max := none, start := none,
               «end» := none, t := "-" }
    ∧ rain_stats herh values area td s e
      = some { td_window := td, max := none, start := none,
               «end» := none, t := "-" } := by
  constructor
  · rfl
  · cases values with
    | nil => simp at hh
    | cons a as =>
      simp only [List.head?_cons, Option.some.injEq] at hh
      subst hh
      simp [rain_stats, hu, hmv, pyMaxBy, _t_to_string]

/-- Witness for C5: a one-point series with a 2-hour window over the
40-second range `[0, 100]`. -/
theorem claim_C5_witness :
    ([⟨⟨0, 0⟩, 2, "mm/hr"⟩] : List Value).head? = some ⟨⟨0, 0⟩, 2, "mm/hr"⟩
    ∧ UNIT_TO_TIMEDELTA (⟨⟨0, 0⟩, 2, "mm/hr"⟩ : Value).unit = some 3600
    ∧ moving_sum [⟨⟨0, 0⟩, 2, "mm/hr"⟩] 7200 0 100 = []
    ∧ (rain_stats (fun _ _ _ => none) [] 25 7200 0 100
        = some { td_window := 7200, max := none, start := none,
                 «end» := none, t := "-" }
      ∧ rain_stats (fun _ _ _ => none) [⟨⟨0, 0⟩, 2, "mm/hr"⟩] 25 7200 0 100
        = some { td_window := 7200, max := none, start := none,
                 «end» := none, t := "-" }) := by
  have hmv : moving_sum [⟨⟨0, 0⟩, 2, "mm/hr"⟩] 7200 0 100 = [] := by
    rw [moving_sum, windowStartsFrom, if_neg (by decide)]
    rfl
  exact ⟨rfl, rfl, hmv,
    claim_C5 (fun _ _ _ => none) 25 7200 0 100 [⟨⟨0, 0⟩, 2, "mm/hr"⟩]
      ⟨⟨0, 0⟩, 2, "mm/hr"⟩ rfl 3600 rfl hmv⟩

end LizardRainapp
